import Mathlib

/-!
Shallow embedding of the bit-level codec engine of the modular-bitfield
crate and the specifier implementations generated by its proc-macro
crate:

* push/pop accumulator primitives (src/private/push_pop.rs),
* the read and write engines (src/private/proc.rs),
* the integer specifiers B1..B128 (impl/src/define_specifiers.rs),
* the boolean specifier (src/private/impls.rs),
* derived enum specifiers (impl/src/bitfield_specifier.rs, default
  native endianness),
* the array/storage conversions (src/private/array_bytes_conv.rs),
* the tagged-ADT codec (impl/src/adt_specifier.rs), instantiated at the
  concrete types of tests/derive-bitfield-specifier/adts.rs.

Machine integers are modelled as Nat with explicit truncation modulo
2 ^ width where the Rust code can drop bits.  Code paths that abort at
run time are modelled with Option: none means the call aborts.  We
follow the semantics of a debug build, where every debug assertion and
every overflow check is active, which is how the crate runs its test
suite; the comments note the points where a release build would instead
compute a wrong value.

Byte buffers are lists of byte values; indexing uses List.getD together
with range hypotheses mirroring the in-bounds requirements of slice
indexing.
-/

namespace ModularBitfield

/-- Rust's `count_ones` restricted to the low `width` bits, structurally
recursive on `width`.  For `n < 2 ^ width` this is exactly `uN::count_ones`
for the `width`-bit unsigned type. -/
def countOnes : Nat → Nat → Nat
  | 0, _ => 0
  | w + 1, n => n % 2 + countOnes w (n / 2)

/-- `PopBits::pop_bits` of `PopBuffer<uW>` (src/private/push_pop.rs).
The bit mask `0xFF >> (8 - amount)` (for `u8` the equivalent
`(0x01u16 << amount) - 1` cast back to `u8`) selects the low `amount`
bits; `checked_shr` yields `0` when `amount` equals the storage width.
Returns the popped byte and the new accumulator; `none` models a failed
debug assertion (the amount range check and the bit-conservation
check). -/
def popBits (width amount b : Nat) : Option (Nat × Nat) :=
  if 1 ≤ amount ∧ amount ≤ 8 then
    let bitmask := 255 >>> (8 - amount)
    let res := b &&& bitmask
    let b' := if amount < width then b >>> amount else 0
    if countOnes width res + countOnes width b' = countOnes width b then
      some (res, b')
    else none
  else none

/-- `PushBits::push_bits` of `PushBuffer<uW>` (src/private/push_pop.rs).
`wrapping_shl` wraps the shift amount modulo the storage width and the
shifted value is truncated to `width` bits; `none` models a failed debug
assertion. -/
def pushBits (width amount bits acc : Nat) : Option Nat :=
  if 1 ≤ amount ∧ amount ≤ 8 then
    let bitmask := 255 >>> (8 - amount)
    let acc' := ((acc <<< (amount % width)) % 2 ^ width) ||| (bits &&& bitmask)
    if countOnes width (bits &&& bitmask) + countOnes width acc = countOnes width acc' then
      some acc'
    else none
  else none

/-- Pushes the bytes `bytes[lo]`, …, `bytes[lo + count - 1]` in reverse
order (most significant byte first), 8 bits each: the shape of the two
`for byte in ….iter().rev()` loops of `read_specifier`. -/
def pushBytesDesc (width : Nat) (bytes : List Nat) (lo : Nat) : Nat → Nat → Option Nat
  | 0, acc => some acc
  | count + 1, acc =>
    (pushBits width 8 (bytes.getD (lo + count) 0) acc).bind
      (pushBytesDesc width bytes lo count)

/-- The expression `(0 - lsb_offset).try_into().unwrap()` of
`read_specifier` (src/private/proc.rs line 63), where `lsb_offset : usize`.
For `lsb_offset > 0` the subtraction underflows, which aborts a debug
build; a release build wraps it to `2^64 - lsb_offset`, which exceeds
`u32::MAX`, so `try_into::<u32>().unwrap()` aborts there instead.  Both
are modelled as `none`. -/
def sub0TryInto (lsbOffset : Nat) : Option Nat :=
  if lsbOffset = 0 then some 0 else none

/-- `read_specifier::<T>` (src/private/proc.rs) for a specifier with
`T::BITS = bits` whose storage type `T::Bytes` is the `width`-bit
unsigned integer.  `none` models an aborted call. -/
def readSpecifier (width bits : Nat) (bytes : List Nat) (offset : Nat) : Option Nat :=
  let en := offset + bits
  let leastSb := offset / 8
  let mostSb := (en - 1) / 8
  let lsbOffset := offset % 8
  let msbOffset0 := en % 8
  let msbOffset := if msbOffset0 = 0 then 8 else msbOffset0
  if lsbOffset = 0 ∧ msbOffset = 8 then
    pushBytesDesc width bytes leastSb (mostSb - leastSb + 1) 0
  else
    (if leastSb ≠ mostSb then pushBits width msbOffset (bytes.getD mostSb 0) 0
     else some 0).bind fun acc1 =>
    (if 2 ≤ mostSb - leastSb then
        pushBytesDesc width bytes (leastSb + 1) (mostSb - (leastSb + 1)) acc1
     else some acc1).bind fun acc2 =>
    if leastSb = mostSb then
      pushBits width bits (bytes.getD leastSb 0 >>> lsbOffset) acc2
    else
      (sub0TryInto lsbOffset).bind fun amount =>
        pushBits width amount (bytes.getD leastSb 0 >>> lsbOffset) acc2

/-- Pops 8 bits per byte and overwrites `bytes[idx]`, …,
`bytes[idx + count - 1]` in ascending order: the shape of the
`for byte in ….iter_mut()` loops of `write_specifier`. -/
def popBytesAsc (width : Nat) : List Nat → Nat → Nat → Nat → Option (List Nat × Nat)
  | bytes, _, 0, st => some (bytes, st)
  | bytes, idx, count + 1, st =>
    (popBits width 8 st).bind fun rs =>
      popBytesAsc width (bytes.set idx rs.1) (idx + 1) count rs.2

/-- `write_specifier::<T>` (src/private/proc.rs) for a specifier with
`T::BITS = bits` whose storage type is the `width`-bit unsigned integer.
The byte complement `!m` of an 8-bit mask is `255 ^^^ m` and the
truncating `u8` shift `overwrite << lsb_offset` is `% 256`. -/
def writeSpecifier (width bits : Nat) (bytes : List Nat) (offset newVal : Nat) :
    Option (List Nat) :=
  let en := offset + bits
  let leastSb := offset / 8
  let mostSb := (en - 1) / 8
  let lsbOffset := offset % 8
  let msbOffset0 := en % 8
  let msbOffset := if msbOffset0 = 0 then 8 else msbOffset0
  if lsbOffset = 0 ∧ msbOffset = 8 then
    (popBytesAsc width bytes leastSb (mostSb - leastSb + 1) newVal).map Prod.fst
  else
    let staysSame := bytes.getD leastSb 0 &&&
      ((if leastSb = mostSb ∧ msbOffset ≠ 8 then 255 ^^^ (2 ^ msbOffset - 1) else 0)
        ||| (2 ^ lsbOffset - 1))
    (popBits width (8 - lsbOffset) newVal).bind fun ow =>
    let bytes1 := bytes.set leastSb (staysSame ||| (ow.1 <<< lsbOffset % 256))
    (if 2 ≤ mostSb - leastSb then
        popBytesAsc width bytes1 (leastSb + 1) (mostSb - (leastSb + 1)) ow.2
     else some (bytes1, ow.2)).bind fun br =>
    if leastSb ≠ mostSb then
      if msbOffset = 8 then
        (popBits width msbOffset br.2).map fun rs => br.1.set mostSb rs.1
      else
        let ss := br.1.getD mostSb 0 &&& (255 ^^^ (2 ^ msbOffset - 1))
        (popBits width msbOffset br.2).map fun rs => br.1.set mostSb (ss ||| rs.1)
    else some br.1

/-- The storage type chosen for a `bits`-wide specifier: the next of
{u8, u16, u32, u64, u128} covering `bits`
(impl/src/define_specifiers.rs). -/
def storageWidth (bits : Nat) : Nat :=
  if bits ≤ 8 then 8
  else if bits ≤ 16 then 16
  else if bits ≤ 32 then 32
  else if bits ≤ 64 then 64
  else 128

/-- Bit `i` of a byte buffer, bit 0 being the least significant bit of
byte 0 (the crate's layout contract). -/
def getBit (bytes : List Nat) (i : Nat) : Bool :=
  (bytes.getD (i / 8) 0).testBit (i % 8)

/-- Rust's `usize::is_power_of_two`, i.e. `count_ones() == 1` on the
64-bit `usize`. -/
def isPowerOfTwo (n : Nat) : Bool :=
  countOnes 64 n == 1

/-- The `OutOfBounds` error (src/error.rs). -/
inductive OutOfBounds where
  | mk
deriving DecidableEq

instance {ε α : Type} [DecidableEq ε] [DecidableEq α] : DecidableEq (Except ε α) :=
  fun x y =>
    match x, y with
    | .error a, .error b => decidable_of_iff (a = b) (by simp)
    | .error _, .ok _ => isFalse (fun h => Except.noConfusion h)
    | .ok _, .error _ => isFalse (fun h => Except.noConfusion h)
    | .ok a, .ok b => decidable_of_iff (a = b) (by simp)

/-- The `max_value` constant of the generated specifier `B{bits}`
(impl/src/define_specifiers.rs): the full storage maximum when `bits`
is a power of two at least 8 (the overflow check is then structurally
impossible to fail), else `((0x01 as InOut) << bits) - 1`. -/
def maxValueB (bits : Nat) : Nat :=
  if isPowerOfTwo bits ∧ 8 ≤ bits then 2 ^ storageWidth bits - 1 else 2 ^ bits - 1

/-- `<B{bits} as Specifier>::into_bytes` (impl/src/define_specifiers.rs):
rejects `input > max_value` with `OutOfBounds`. -/
def intoBytesB (bits v : Nat) : Except OutOfBounds Nat :=
  if maxValueB bits < v then .error .mk else .ok v

/-- `<B{bits} as Specifier>::from_bytes`: rejects `bytes > max_value`
with `InvalidBitPattern` carrying the bytes (modelled as the error
payload). -/
def fromBytesB (bits v : Nat) : Except Nat Nat :=
  if maxValueB bits < v then .error v else .ok v

/-- `<bool as Specifier>::into_bytes` (src/private/impls.rs): the value
cast `input as u8`, never fails. -/
def boolIntoBytes (input : Bool) : Except OutOfBounds Nat :=
  .ok (if input then 1 else 0)

/-- `<bool as Specifier>::from_bytes` (src/private/impls.rs): `0` is
`false`, `1` is `true`, anything else is an `InvalidBitPattern` carrying
the value. -/
def boolFromBytes (bytes : Nat) : Except Nat Bool :=
  if bytes = 0 then .ok false
  else if bytes = 1 then .ok true
  else .error bytes

/-- `from_bytes` of a derived enum specifier with the given discriminant
list (impl/src/bitfield_specifier.rs, default native endianness): the
generated match arms test the declared discriminants in order and the
final arm returns `InvalidBitPattern` carrying the value.  The `Ok`
payload is the index of the matching variant. -/
def fromBytesEnum : List Nat → Nat → Except Nat Nat
  | [], v => .error v
  | d :: ds, v => if v = d then .ok 0 else (fromBytesEnum ds v).map (· + 1)

/-- `into_bytes` of a derived enum specifier (default native
endianness): `Ok(input as Bytes)`, the variant's fixed discriminant. -/
def intoBytesEnum (discs : List Nat) (i : Nat) : Except OutOfBounds Nat :=
  .ok (discs.getD i 0)

/-- `uN::to_le_bytes` producing `count` bytes, least significant
first. -/
def leBytes : Nat → Nat → List Nat
  | 0, _ => []
  | count + 1, v => v % 256 :: leBytes count (v / 256)

/-- `uN::from_le_bytes`. -/
def fromLeBytes : List Nat → Nat
  | [] => 0
  | b :: bs => b + 256 * fromLeBytes bs

/-- `array_into_bytes` of the `[(); size]` conversion for a storage type
of `W` bits (src/private/array_bytes_conv.rs): the `size / 8` input
bytes are copied into the low bytes of a zeroed `W / 8` byte array and
converted through `from_le_bytes`. -/
def array_into_bytes (W size : Nat) (a : List Nat) : Nat :=
  fromLeBytes (a ++ List.replicate (W / 8 - size / 8) 0)

/-- `bytes_into_array` of the `[(); size]` conversion
(src/private/array_bytes_conv.rs): `to_le_bytes` followed by taking the
low `size / 8` bytes; the debug assertion that all dropped high bytes
are zero is modelled by `none`. -/
def bytes_into_array (W size : Nat) (b : Nat) : Option (List Nat) :=
  let array := leBytes (W / 8) b
  if (array.drop (size / 8)).all (· = 0) then some (array.take (size / 8)) else none

/-- Sequencing of the generated fallible statements: the outer `Option`
is the abort model and the inner `Except` is the `?` operator's early
return. -/
def tryBind (x : Option (Except OutOfBounds (List Nat)))
    (f : List Nat → Option (Except OutOfBounds α)) : Option (Except OutOfBounds α) :=
  x.bind fun r =>
    match r with
    | .error e => some (.error e)
    | .ok buf => f buf

/-- The statement block emitted by `check_bounds_and_write`
(impl/src/adt_specifier.rs): convert through `into_bytes` (`?`), reject
values above `!0 >> (base_bits - spec_bits)` unless the widths agree,
then call the write engine. -/
def check_bounds_and_write (baseBits specBits : Nat) (raw : Except OutOfBounds Nat)
    (buf : List Nat) (offset : Nat) : Option (Except OutOfBounds (List Nat)) :=
  match raw with
  | .error e => some (.error e)
  | .ok r =>
    if baseBits = specBits ∨ r ≤ (2 ^ baseBits - 1) >>> (baseBits - specBits) then
      (writeSpecifier baseBits specBits buf offset r).map .ok
    else some (.error .mk)

/-! Concrete specifiers of tests/derive-bitfield-specifier/adts.rs, as
generated by the derive macros. -/

/-- The 2-bit enum `Two` with variants `Zero, One, Two, Three`. -/
inductive TwoE where
  | Zero | One | Two | Three
deriving DecidableEq

/-- Discriminant of a `Two` variant. -/
def twoDisc : TwoE → Nat
  | .Zero => 0
  | .One => 1
  | .Two => 2
  | .Three => 3

/-- Generated `<Two as Specifier>::from_bytes`. -/
def twoFromBytes (v : Nat) : Except Nat TwoE :=
  if v = 0 then .ok .Zero
  else if v = 1 then .ok .One
  else if v = 2 then .ok .Two
  else if v = 3 then .ok .Three
  else .error v

/-- The 4-bit enum `Four` with variants `Zero = 0, Fifteen = 15`. -/
inductive FourE where
  | Zero | Fifteen
deriving DecidableEq

/-- Discriminant of a `Four` variant. -/
def fourDisc : FourE → Nat
  | .Zero => 0
  | .Fifteen => 15

/-- Generated `<Four as Specifier>::from_bytes`. -/
def fourFromBytes (v : Nat) : Except Nat FourE :=
  if v = 0 then .ok .Zero
  else if v = 15 then .ok .Fifteen
  else .error v

/-- The generated 2-bit tag enum of the ADT `SimpleAdt` (one unit
variant per ADT variant: `First, Second, Third, Fourth`). -/
inductive SimpleTag where
  | First | Second | Third | Fourth
deriving DecidableEq

/-- Generated `from_bytes` of the `SimpleAdt` tag enum. -/
def simpleTagFromBytes (v : Nat) : Except Nat SimpleTag :=
  if v = 0 then .ok .First
  else if v = 1 then .ok .Second
  else if v = 2 then .ok .Third
  else if v = 3 then .ok .Fourth
  else .error v

/-- Generated `into_bytes` of the `SimpleAdt` tag enum. -/
def simpleTagIntoBytes : SimpleTag → Except OutOfBounds Nat
  | .First => .ok 0
  | .Second => .ok 1
  | .Third => .ok 2
  | .Fourth => .ok 3

/-- The tagged ADT `SimpleAdt { First(Two, Four), Second(Two), Third,
Fourth }` with `#[bits = 2]`: 2 tag bits, widest payload 6 bits, so
`BITS = 8` and `Bytes = u8`. -/
inductive SimpleAdt where
  | First (t : TwoE) (f : FourE)
  | Second (t : TwoE)
  | Third
  | Fourth
deriving DecidableEq

/-- Generated `<SimpleAdt as Specifier>::into_bytes`
(impl/src/adt_specifier.rs): a fresh zeroed local buffer of
`BITS.next_divisible_by_8 / 8` bytes, the tag written at offset 0, each
payload field written at `tag_bits` plus the widths of the prior payload
fields, then `array_into_bytes` (here the primitive one-byte
`from_le_bytes`). -/
def simpleAdtIntoBytes (v : SimpleAdt) : Option (Except OutOfBounds Nat) :=
  match v with
  | .First t f =>
    tryBind (check_bounds_and_write 8 2 (simpleTagIntoBytes .First) (List.replicate 1 0) 0)
      fun buf1 =>
    tryBind (check_bounds_and_write 8 2 (.ok (twoDisc t)) buf1 2) fun buf2 =>
    tryBind (check_bounds_and_write 8 4 (.ok (fourDisc f)) buf2 (2 + 2)) fun buf3 =>
    some (.ok (fromLeBytes buf3))
  | .Second t =>
    tryBind (check_bounds_and_write 8 2 (simpleTagIntoBytes .Second) (List.replicate 1 0) 0)
      fun buf1 =>
    tryBind (check_bounds_and_write 8 2 (.ok (twoDisc t)) buf1 2) fun buf2 =>
    some (.ok (fromLeBytes buf2))
  | .Third =>
    tryBind (check_bounds_and_write 8 2 (simpleTagIntoBytes .Third) (List.replicate 1 0) 0)
      fun buf1 =>
    some (.ok (fromLeBytes buf1))
  | .Fourth =>
    tryBind (check_bounds_and_write 8 2 (simpleTagIntoBytes .Fourth) (List.replicate 1 0) 0)
      fun buf1 =>
    some (.ok (fromLeBytes buf1))

/-- Generated `<SimpleAdt as Specifier>::from_bytes`: convert the
storage value to a byte array, read the tag at offset 0, dispatch on it
to the matching variant's payload layout; every `map_err` replaces the
inner error by `InvalidBitPattern::new(bytes)`, carrying the whole
storage value `b`. -/
def simpleAdtFromBytes (b : Nat) : Option (Except Nat SimpleAdt) :=
  let array := leBytes 1 b
  (readSpecifier 8 2 array 0).bind fun tagRaw =>
  match simpleTagFromBytes tagRaw with
  | .error _ => some (.error b)
  | .ok tag =>
    match tag with
    | .First =>
      (readSpecifier 8 2 array 2).bind fun r1 =>
      match twoFromBytes r1 with
      | .error _ => some (.error b)
      | .ok t =>
        (readSpecifier 8 4 array (2 + 2)).bind fun r2 =>
        match fourFromBytes r2 with
        | .error _ => some (.error b)
        | .ok f => some (.ok (.First t f))
    | .Second =>
      (readSpecifier 8 2 array 2).bind fun r1 =>
      match twoFromBytes r1 with
      | .error _ => some (.error b)
      | .ok t => some (.ok (.Second t))
    | .Third => some (.ok .Third)
    | .Fourth => some (.ok .Fourth)

/-- The explicit 2-bit tag enum `Tags { Unused = 0, Has = 1,
Missing = 2 }` of the ADT `Tagged`. -/
inductive TagsE where
  | Unused | Has | Missing
deriving DecidableEq

/-- Generated `<Tags as Specifier>::from_bytes`: discriminant 3 is
undeclared and rejected. -/
def tagsFromBytes (v : Nat) : Except Nat TagsE :=
  if v = 0 then .ok .Unused
  else if v = 1 then .ok .Has
  else if v = 2 then .ok .Missing
  else .error v

/-- `<RegularBf as Specifier>::from_bytes` for the 7-bit unfilled
`#[bitfield]` struct `RegularBf` (impl/src/bitfield/expand.rs): rejects
`bytes > 0x01 << 7`, otherwise keeps the byte; the struct value is
modelled by its single byte. -/
def regularBfFromBytes (v : Nat) : Except Nat Nat :=
  if 2 ^ 7 < v then .error v else .ok v

/-- The tagged ADT `Tagged { Has(RegularBf), Missing }` with
`#[tag(Tags)]`: 2 tag bits plus the 7-bit payload give `BITS = 9`,
`Bytes = u16`. -/
inductive TaggedT where
  | Has (bf : Nat)
  | Missing
deriving DecidableEq

/-- Generated `<Tagged as Specifier>::from_bytes`: the storage value is
turned into its 2-byte little-endian array, the `Tags` tag is read at
offset 0 and dispatched on; the tag values `Unused` (no matching ADT
variant, the generated catch-all arm) and 3 (rejected by
`Tags::from_bytes`) both produce `InvalidBitPattern::new(bytes)`
carrying the whole storage value. -/
def taggedFromBytes (b : Nat) : Option (Except Nat TaggedT) :=
  let array := leBytes 2 b
  (readSpecifier 8 2 array 0).bind fun tagRaw =>
  match tagsFromBytes tagRaw with
  | .error _ => some (.error b)
  | .ok tag =>
    match tag with
    | .Has =>
      (readSpecifier 8 7 array 2).bind fun r =>
      match regularBfFromBytes r with
      | .error _ => some (.error b)
      | .ok x => some (.ok (.Has x))
    | .Missing => some (.ok .Missing)
    | .Unused => some (.error b)

/-! ### Helper lemmas -/

theorem countOnes_zero (w : Nat) : countOnes w 0 = 0 := by
  induction w with
  | zero => rfl
  | succ w ih => simpa [countOnes] using ih

theorem countOnes_succ_of_lt {w n : Nat} (h : n < 2 ^ w) :
    countOnes (w + 1) n = countOnes w n := by
  induction w generalizing n with
  | zero =>
    have hn : n = 0 := by
      have : (2 : Nat) ^ 0 = 1 := rfl
      omega
    subst hn; rfl
  | succ w ih =>
    have h2 : n / 2 < 2 ^ w := by
      have hp : 2 ^ (w + 1) = 2 ^ w * 2 := by rw [Nat.pow_succ]
      omega
    show n % 2 + countOnes (w + 1) (n / 2) = n % 2 + countOnes w (n / 2)
    rw [ih h2]

/-- Splitting off the low `n` bits conserves the bit count. -/
theorem countOnes_split {n w b : Nat} (hb : b < 2 ^ w) :
    countOnes w (b % 2 ^ n) + countOnes w (b / 2 ^ n) = countOnes w b := by
  induction n generalizing w b with
  | zero => simp [Nat.mod_one, countOnes_zero]
  | succ n ih =>
    cases w with
    | zero =>
      have hb0 : b = 0 := by
        have : (2 : Nat) ^ 0 = 1 := rfl
        omega
      subst hb0
      simp [countOnes_zero, Nat.zero_div, countOnes]
    | succ w =>
      have hb2 : b / 2 < 2 ^ w := by
        have hp : 2 ^ (w + 1) = 2 ^ w * 2 := by rw [Nat.pow_succ]
        omega
      have hpow : 2 ^ (n + 1) = 2 * 2 ^ n := by rw [Nat.pow_succ, Nat.mul_comm]
      have e1 : b % 2 ^ (n + 1) % 2 = b % 2 :=
        Nat.mod_mod_of_dvd b ⟨2 ^ n, hpow⟩
      have e2 : b % 2 ^ (n + 1) / 2 = b / 2 % 2 ^ n := by
        rw [hpow, Nat.mod_mul_right_div_self]
      have e3 : b / 2 ^ (n + 1) = b / 2 / 2 ^ n := by
        rw [Nat.div_div_eq_div_mul, ← hpow]
      have e4 : b / 2 ^ (n + 1) < 2 ^ w := by
        rw [e3]
        exact lt_of_le_of_lt (Nat.div_le_self _ _) hb2
      have u1 : countOnes (w + 1) (b % 2 ^ (n + 1))
          = b % 2 + countOnes w (b / 2 % 2 ^ n) := by
        show b % 2 ^ (n + 1) % 2 + countOnes w (b % 2 ^ (n + 1) / 2) = _
        rw [e1, e2]
      have u2 : countOnes (w + 1) (b / 2 ^ (n + 1)) = countOnes w (b / 2 / 2 ^ n) := by
        rw [countOnes_succ_of_lt e4, e3]
      have u3 : countOnes (w + 1) b = b % 2 + countOnes w (b / 2) := rfl
      rw [u1, u2, u3]
      have := ih hb2
      omega

theorem bitmask_eq {a : Nat} (h1 : 1 ≤ a) (h2 : a ≤ 8) :
    255 >>> (8 - a) = 2 ^ a - 1 := by
  interval_cases a <;> rfl

/-- The pop primitive is total on in-range accumulators and returns the
low `n` bits together with the accumulator shifted right by `n`. -/
theorem popBits_eq {W n b : Nat} (h1 : 1 ≤ n) (h2 : n ≤ 8) (hW : 8 ≤ W)
    (hb : b < 2 ^ W) : popBits W n b = some (b % 2 ^ n, b / 2 ^ n) := by
  have hres : b &&& 255 >>> (8 - n) = b % 2 ^ n := by
    rw [bitmask_eq h1 h2]
    exact Nat.and_pow_two_sub_one_eq_mod b n
  have hsh : (if n < W then b >>> n else 0) = b / 2 ^ n := by
    by_cases h : n < W
    · rw [if_pos h, Nat.shiftRight_eq_div_pow]
    · rw [if_neg h]
      have hn8 : n = 8 := by omega
      have hW8 : W = 8 := by omega
      subst hn8; subst hW8
      exact (Nat.div_eq_of_lt hb).symm
  simp only [popBits, if_pos (And.intro h1 h2), hres, hsh,
    if_pos (countOnes_split hb)]

/-- Conservation for a push that does not shift any bit out. -/
theorem push_conserve {W n bits acc : Nat} (hn : n ≤ W) (hacc : acc < 2 ^ (W - n)) :
    countOnes W (bits &&& (2 ^ n - 1)) + countOnes W acc
      = countOnes W (acc * 2 ^ n + (bits &&& (2 ^ n - 1))) := by
  have hmlt : bits &&& (2 ^ n - 1) < 2 ^ n := by
    have h := Nat.and_pow_two_sub_one_eq_mod bits n
    have : bits % 2 ^ n < 2 ^ n := Nat.mod_lt _ (Nat.two_pow_pos n)
    omega
  set m := bits &&& (2 ^ n - 1) with hm
  have hx : acc * 2 ^ n + m < 2 ^ W := by
    have hle : acc + 1 ≤ 2 ^ (W - n) := hacc
    have h2 : (acc + 1) * 2 ^ n ≤ 2 ^ (W - n) * 2 ^ n :=
      Nat.mul_le_mul_right _ hle
    have h3 : 2 ^ (W - n) * 2 ^ n = 2 ^ W := by
      rw [← Nat.pow_add]
      congr 1
      omega
    have h4 : acc * 2 ^ n + 2 ^ n ≤ 2 ^ W := by
      rw [← h3]
      calc acc * 2 ^ n + 2 ^ n = (acc + 1) * 2 ^ n := by ring
        _ ≤ 2 ^ (W - n) * 2 ^ n := h2
    omega
  have hmod : (acc * 2 ^ n + m) % 2 ^ n = m := by
    rw [Nat.mul_comm, Nat.mul_add_mod]
    exact Nat.mod_eq_of_lt hmlt
  have hdiv : (acc * 2 ^ n + m) / 2 ^ n = acc := by
    rw [Nat.mul_comm, Nat.mul_add_div (Nat.two_pow_pos n), Nat.div_eq_of_lt hmlt]
    omega
  have := countOnes_split (n := n) hx
  rw [hmod, hdiv] at this
  omega

/-- The push primitive on an accumulator whose top `n` bits are clear. -/
theorem pushBits_eq {W n bits acc : Nat} (h1 : 1 ≤ n) (h2 : n ≤ 8) (hW : 8 ≤ W)
    (hacc : acc < 2 ^ (W - n)) :
    pushBits W n bits acc = some (acc * 2 ^ n + (bits &&& (2 ^ n - 1))) := by
  have hmask : (255 : Nat) >>> (8 - n) = 2 ^ n - 1 := bitmask_eq h1 h2
  have hmlt : bits &&& (2 ^ n - 1) < 2 ^ n := by
    have h := Nat.and_pow_two_sub_one_eq_mod bits n
    have : bits % 2 ^ n < 2 ^ n := Nat.mod_lt _ (Nat.two_pow_pos n)
    omega
  by_cases hnW : n < W
  · have hshift : acc <<< (n % W) % 2 ^ W = acc * 2 ^ n := by
      rw [Nat.mod_eq_of_lt hnW, Nat.shiftLeft_eq]
      apply Nat.mod_eq_of_lt
      have h3 : 2 ^ (W - n) * 2 ^ n = 2 ^ W := by
        rw [← Nat.pow_add]
        congr 1
        omega
      calc acc * 2 ^ n < 2 ^ (W - n) * 2 ^ n :=
        (Nat.mul_lt_mul_right (Nat.two_pow_pos n)).mpr hacc
        _ = 2 ^ W := h3
    have hor : acc * 2 ^ n ||| (bits &&& (2 ^ n - 1)) = acc * 2 ^ n + (bits &&& (2 ^ n - 1)) := by
      rw [Nat.mul_comm acc (2 ^ n)]
      exact (Nat.mul_add_lt_is_or hmlt acc).symm
    simp only [pushBits, if_pos (And.intro h1 h2), hmask, hshift, hor]
    rw [if_pos (push_conserve (Nat.le_of_lt hnW) hacc)]
  · have hn8 : n = 8 := by omega
    have hW8 : W = 8 := by omega
    subst hn8; subst hW8
    have hacc0 : acc = 0 := by
      have : (2 : Nat) ^ (8 - 8) = 1 := rfl
      omega
    subst hacc0
    simp only [pushBits, hmask]
    norm_num [countOnes_zero]

/-- `bits ≤ storageWidth bits` and `8 ≤ storageWidth bits` for every
supported width. -/
theorem storageWidth_bounds {bits : Nat} (h : bits ≤ 128) :
    bits ≤ storageWidth bits ∧ 8 ≤ storageWidth bits := by
  unfold storageWidth
  split_ifs <;> omega

/-! ### Claims -/

/-- C1 (code bug): the round trip of the codec engine fails.  Writing
the value `0xAB` as an 8-bit field at bit offset 4 of a zeroed 2-byte
buffer succeeds and produces `[0xB0, 0x0A]`, but reading the same field
back aborts: `read_specifier` computes its final push amount as
`(0 - lsb_offset).try_into().unwrap()`, which for `lsb_offset = 4`
underflows the `usize` subtraction (debug) or fails the `u32`
conversion (release), instead of pushing the remaining
`8 - lsb_offset` low bits. -/
theorem c1_round_trip_aborts :
    writeSpecifier 8 8 [0, 0] 4 171 = some [176, 10]
    ∧ readSpecifier 8 8 [176, 10] 4 = none := by
  exact ⟨by decide, by decide⟩

/-- C2 (code bug): the read engine is not total.  For the 9-bit field at
bit offset 1 of the buffer `[0xFF, 0xFF]` — a field spanning more than
one byte and not byte-aligned at its low end — `read_specifier` aborts
on the underflowing amount `0 - lsb_offset`. -/
theorem c2_read_not_total :
    readSpecifier 16 9 [255, 255] 1 = none := by decide

/-- C9 counterexample: `push_bits` does not satisfy the bit-conservation
assertion for every accumulator state.  On the `u8` buffer with
accumulator `128`, pushing 1 bit shifts the top bit out, the assertion
`popcount(pushed) + popcount(old) = popcount(new)` fails
(`1 + 0 ≠ 0`), and the call aborts. -/
theorem c9_counterexample :
    pushBits 8 1 0 128 = none
    ∧ countOnes 8 (0 &&& (2 ^ 1 - 1)) + countOnes 8 128
        ≠ countOnes 8 ((128 <<< (1 % 8)) % 2 ^ 8 ||| (0 &&& (2 ^ 1 - 1))) := by
  exact ⟨by decide, by decide⟩

/-- C9 (amended): for every storage width in {8, 16, 32, 64, 128}, every
in-range accumulator `b` and every amount `1 ≤ n ≤ 8`, `pop_bits`
returns exactly the low `n` bits of `b`, leaves the accumulator equal to
`b` shifted right by `n` (0 when `n` equals the storage width, via the
checked shift), and satisfies the conservation assertion
`popcount(result) + popcount(new) = popcount(b)`; `push_bits` satisfies
the dual assertion provided the top `n` bits of the accumulator are
clear (`b < 2 ^ (W - n)`), the case in which no bit is shifted out. -/
theorem c9_pop_total_push_guarded (W n b bits : Nat)
    (hW : W = 8 ∨ W = 16 ∨ W = 32 ∨ W = 64 ∨ W = 128)
    (hb : b < 2 ^ W) (h1 : 1 ≤ n) (h2 : n ≤ 8) :
    popBits W n b = some (b % 2 ^ n, b / 2 ^ n)
    ∧ countOnes W (b % 2 ^ n) + countOnes W (b / 2 ^ n) = countOnes W b
    ∧ (b < 2 ^ (W - n) →
        pushBits W n bits b = some (b * 2 ^ n + (bits &&& (2 ^ n - 1)))
        ∧ countOnes W (bits &&& (2 ^ n - 1)) + countOnes W b
            = countOnes W (b * 2 ^ n + (bits &&& (2 ^ n - 1)))) := by
  have hW8 : 8 ≤ W := by rcases hW with h | h | h | h | h <;> omega
  refine ⟨popBits_eq h1 h2 hW8 hb, countOnes_split hb, fun hb' => ?_⟩
  exact ⟨pushBits_eq h1 h2 hW8 hb', push_conserve (by omega) hb'⟩

/-- Witness for C9: storage width 8, accumulator 3, amount 4,
pushed byte 5. -/
theorem c9_witness :
    popBits 8 4 3 = some (3 % 2 ^ 4, 3 / 2 ^ 4)
    ∧ countOnes 8 (3 % 2 ^ 4) + countOnes 8 (3 / 2 ^ 4) = countOnes 8 3
    ∧ ((3 : Nat) < 2 ^ (8 - 4) →
        pushBits 8 4 5 3 = some (3 * 2 ^ 4 + (5 &&& (2 ^ 4 - 1)))
        ∧ countOnes 8 (5 &&& (2 ^ 4 - 1)) + countOnes 8 3
            = countOnes 8 (3 * 2 ^ 4 + (5 &&& (2 ^ 4 - 1)))) :=
  c9_pop_total_push_guarded 8 4 3 5 (Or.inl rfl) (by decide) (by decide) (by decide)

set_option maxRecDepth 40000 in
/-- The condition guarding the skippable overflow check of `B{bits}`
holds exactly for the bit widths that fill their storage type. -/
theorem isPowerOfTwo_ge8_iff :
    ∀ b, b < 129 → ((isPowerOfTwo b ∧ 8 ≤ b)
      ↔ (b = 8 ∨ b = 16 ∨ b = 32 ∨ b = 64 ∨ b = 128)) := by decide

set_option maxRecDepth 40000 in
/-- `storageWidth bits = bits` exactly on the full widths. -/
theorem storageWidth_eq_iff :
    ∀ b, b < 129 → 1 ≤ b → (storageWidth b = b
      ↔ (b = 8 ∨ b = 16 ∨ b = 32 ∨ b = 64 ∨ b = 128)) := by decide

/-- The generated `max_value` of `B{bits}` always equals
`2 ^ bits - 1`: in the skippable branch the storage width coincides with
`bits`. -/
theorem maxValueB_eq {bits : Nat} (h1 : 1 ≤ bits) (h2 : bits ≤ 128) :
    maxValueB bits = 2 ^ bits - 1 := by
  unfold maxValueB
  by_cases h : isPowerOfTwo bits ∧ 8 ≤ bits
  · rw [if_pos h]
    have hb := (isPowerOfTwo_ge8_iff bits (by omega)).mp h
    have hsw : storageWidth bits = bits :=
      (storageWidth_eq_iff bits (by omega) h1).mpr hb
    rw [hsw]
  · rw [if_neg h]

/-- C5: for every integer specifier `B{bits}` with `1 ≤ bits ≤ 128` and
every storage value `v`, `into_bytes` rejects with `OutOfBounds` exactly
the values `v ≥ 2 ^ bits` and accepts the rest unchanged; the rejection
is structurally impossible (no storage value is ever rejected) exactly
when the storage width equals `bits`, i.e. for
`bits ∈ {8, 16, 32, 64, 128}`. -/
theorem c5_intoBytesB_bounds (bits v : Nat) (h1 : 1 ≤ bits) (h2 : bits ≤ 128)
    (hv : v < 2 ^ storageWidth bits) :
    (intoBytesB bits v = .error .mk ↔ 2 ^ bits ≤ v)
    ∧ (intoBytesB bits v = .ok v ↔ v < 2 ^ bits)
    ∧ ((∀ w, w < 2 ^ storageWidth bits → intoBytesB bits w = .ok w)
        ↔ storageWidth bits = bits)
    ∧ (storageWidth bits = bits
        ↔ (bits = 8 ∨ bits = 16 ∨ bits = 32 ∨ bits = 64 ∨ bits = 128)) := by
  have hmax := maxValueB_eq h1 h2
  have hpos : 1 ≤ 2 ^ bits := Nat.one_le_two_pow
  have hok : ∀ w, intoBytesB bits w = .ok w ↔ w < 2 ^ bits := by
    intro w
    unfold intoBytesB
    rw [hmax]
    by_cases hlt : 2 ^ bits - 1 < w
    · rw [if_pos hlt]
      simp only [iff_false_intro (by omega : ¬ w < 2 ^ bits), iff_false]
      intro hcontra
      exact Except.noConfusion hcontra
    · rw [if_neg hlt]
      simp only [iff_true_intro (by omega : w < 2 ^ bits), iff_true]
  refine ⟨?_, hok v, ?_, (storageWidth_eq_iff bits (by omega) h1)⟩
  · unfold intoBytesB
    rw [hmax]
    by_cases hlt : 2 ^ bits - 1 < v
    · rw [if_pos hlt]
      simp only [iff_true_intro (by omega : 2 ^ bits ≤ v), iff_true]
    · rw [if_neg hlt]
      constructor
      · intro hcontra
        exact absurd hcontra (by simp)
      · intro hge
        omega
  · constructor
    · intro hall
      by_contra hne
      have hbounds := storageWidth_bounds h2
      have hlt : bits < storageWidth bits := by omega
      have hpowlt : 2 ^ bits < 2 ^ storageWidth bits :=
        Nat.pow_lt_pow_right (by omega) hlt
      have := (hok (2 ^ storageWidth bits - 1)).mp (hall _ (by omega))
      omega
    · intro heq w hw
      rw [heq] at hw
      exact (hok w).mpr hw

/-- Witness for C5: `B9` at the storage value 300. -/
theorem c5_witness :
    (intoBytesB 9 300 = .error .mk ↔ 2 ^ 9 ≤ 300)
    ∧ (intoBytesB 9 300 = .ok 300 ↔ 300 < 2 ^ 9)
    ∧ ((∀ w, w < 2 ^ storageWidth 9 → intoBytesB 9 w = .ok w)
        ↔ storageWidth 9 = 9)
    ∧ (storageWidth 9 = 9 ↔ (9 = 8 ∨ 9 = 16 ∨ 9 = 32 ∨ 9 = 64 ∨ 9 = 128)) :=
  c5_intoBytesB_bounds 9 300 (by decide) (by decide) (by decide)

/-- The error payload of a derived enum `from_bytes` is always the
probed value itself. -/
theorem fromBytesEnum_error_payload :
    ∀ (ds : List Nat) (v e : Nat), fromBytesEnum ds v = .error e → e = v := by
  intro ds
  induction ds with
  | nil =>
    intro v e h
    simpa [fromBytesEnum] using h.symm
  | cons d ds ih =>
    intro v e h
    by_cases hv : v = d
    · rw [fromBytesEnum, if_pos hv] at h
      exact Except.noConfusion h
    · rw [fromBytesEnum, if_neg hv] at h
      cases hrec : fromBytesEnum ds v with
      | error e' =>
        rw [hrec] at h
        simp only [Except.map] at h
        cases h
        exact ih v e hrec
      | ok j =>
        rw [hrec] at h
        simp only [Except.map] at h
        exact Except.noConfusion h

/-- A `getD` hit inside the list is a member. -/
theorem getD_mem {ds : List Nat} {j : Nat} (h : j < ds.length) :
    ds.getD j 0 ∈ ds := by
  induction ds generalizing j with
  | nil => simp at h
  | cons d ds ih =>
    cases j with
    | zero => simp
    | succ j =>
      simp only [List.getD_cons_succ, List.mem_cons]
      exact Or.inr (ih (by simpa using h))

/-- A member of the list is hit by `getD` at some in-range index. -/
theorem mem_getD {ds : List Nat} {v : Nat} (h : v ∈ ds) :
    ∃ j, j < ds.length ∧ ds.getD j 0 = v := by
  induction ds with
  | nil => simp at h
  | cons d ds ih =>
    rcases List.mem_cons.mp h with h | h
    · exact ⟨0, by simp, h.symm⟩
    · obtain ⟨j, hj, hget⟩ := ih h
      exact ⟨j + 1, by simpa using hj, by simpa using hget⟩

/-- Characterisation of a successful derived-enum decode: the match arms
are tried in declaration order, so with distinct discriminants the `Ok`
index is exactly the variant whose discriminant is the probed value. -/
theorem fromBytesEnum_ok_iff {discs : List Nat} (hnd : discs.Nodup) (v i : Nat) :
    fromBytesEnum discs v = .ok i ↔ (i < discs.length ∧ discs.getD i 0 = v) := by
  induction discs generalizing i with
  | nil => simp [fromBytesEnum]
  | cons d ds ih =>
    have hd : d ∉ ds := (List.nodup_cons.mp hnd).1
    have hnd' : ds.Nodup := (List.nodup_cons.mp hnd).2
    by_cases hv : v = d
    · subst hv
      rw [fromBytesEnum, if_pos rfl]
      cases i with
      | zero => simp
      | succ j =>
        simp only [List.length_cons, List.getD_cons_succ]
        constructor
        · intro hcontra
          cases hcontra
        · intro ⟨hj, hget⟩
          exact absurd (hget ▸ getD_mem (by omega)) hd
    · rw [fromBytesEnum, if_neg hv]
      cases hrec : fromBytesEnum ds v with
      | error e =>
        simp only [Except.map]
        constructor
        · intro hcontra
          exact Except.noConfusion hcontra
        · intro ⟨hi, hget⟩
          cases i with
          | zero => exact absurd hget.symm (by simpa using hv)
          | succ j =>
            have := (ih hnd' j).mpr ⟨by simpa using hi, by simpa using hget⟩
            rw [this] at hrec
            exact Except.noConfusion hrec
      | ok j =>
        simp only [Except.map]
        have hj := (ih hnd' j).mp hrec
        constructor
        · intro hok
          cases hok
          exact ⟨by simpa using Nat.succ_lt_succ hj.1, by simpa using hj.2⟩
        · intro ⟨hi, hget⟩
          cases i with
          | zero => exact absurd hget.symm (by simpa using hv)
          | succ j' =>
            have := (ih hnd' j').mpr ⟨by simpa using hi, by simpa using hget⟩
            rw [this] at hrec
            cases hrec
            rfl

/-- C6: for a derived enum specifier with pairwise distinct declared
discriminants, `from_bytes v` succeeds with the variant (index) whose
discriminant is `v` if and only if `v` is declared, otherwise it rejects
with `InvalidBitPattern` carrying `v`; `into_bytes` never fails and
returns the variant's fixed discriminant. -/
theorem c6_enum_codec (discs : List Nat) (v : Nat) (hnd : discs.Nodup) :
    (∀ i, fromBytesEnum discs v = .ok i
      ↔ (i < discs.length ∧ discs.getD i 0 = v))
    ∧ (fromBytesEnum discs v = .error v ↔ v ∉ discs)
    ∧ (∀ i, i < discs.length → intoBytesEnum discs i = .ok (discs.getD i 0)) := by
  refine ⟨fromBytesEnum_ok_iff hnd v, ?_, fun i _ => rfl⟩
  constructor
  · intro herr hmem
    obtain ⟨j, hj, hget⟩ := mem_getD hmem
    have := (fromBytesEnum_ok_iff hnd v j).mpr ⟨hj, hget⟩
    rw [this] at herr
    exact Except.noConfusion herr
  · intro hmem
    cases hrec : fromBytesEnum discs v with
    | error e =>
      have he : e = v := fromBytesEnum_error_payload discs v e hrec
      rw [he]
    | ok j =>
      obtain ⟨hj, hget⟩ := (fromBytesEnum_ok_iff hnd v j).mp hrec
      exact absurd (hget ▸ getD_mem hj) hmem

/-- Witness for C6: the spec's tag-rejection example, discriminants
{0, 1, 2} probed at 3 and at 2. -/
theorem c6_witness :
    (∀ i, fromBytesEnum [0, 1, 2] 3 = .ok i
      ↔ (i < ([0, 1, 2] : List Nat).length ∧ ([0, 1, 2] : List Nat).getD i 0 = 3))
    ∧ (fromBytesEnum [0, 1, 2] 3 = .error 3 ↔ 3 ∉ ([0, 1, 2] : List Nat))
    ∧ (∀ i, i < ([0, 1, 2] : List Nat).length
        → intoBytesEnum [0, 1, 2] i = .ok (([0, 1, 2] : List Nat).getD i 0)) :=
  c6_enum_codec [0, 1, 2] 3 (by decide)

/-- C8: the boolean specifier decodes 0 to `false` and 1 to `true`,
rejects every other storage value with `InvalidBitPattern` carrying that
value, and its `into_bytes` never fails. -/
theorem c8_bool_codec :
    boolFromBytes 0 = .ok false ∧ boolFromBytes 1 = .ok true
    ∧ (∀ v, v ≠ 0 → v ≠ 1 → boolFromBytes v = .error v)
    ∧ (∀ b, boolIntoBytes b = .ok (if b then 1 else 0)) := by
  refine ⟨rfl, rfl, fun v h0 h1 => ?_, fun b => rfl⟩
  unfold boolFromBytes
  rw [if_neg h0, if_neg h1]

/-- Witness for C8 at the storage value 5. -/
theorem c8_witness : boolFromBytes 5 = .error 5 :=
  c8_bool_codec.2.2.1 5 (by decide) (by decide)

theorem getD_set_ne (l : List Nat) (i j a : Nat) (h : i ≠ j) :
    (l.set i a).getD j 0 = l.getD j 0 := by
  simp [List.getD_eq_getElem?_getD, List.getElem?_set_ne h]

theorem getD_set_self (l : List Nat) (i a : Nat) (h : i < l.length) :
    (l.set i a).getD i 0 = a := by
  simp [List.getD_eq_getElem?_getD, List.getElem?_set_self h]

/-- The ascending pop-and-overwrite loop of the write engine succeeds on
in-range accumulators and touches only the indices
`idx, …, idx + count - 1`. -/
theorem popBytesAsc_spec {W : Nat} (hW : 8 ≤ W) :
    ∀ (count : Nat) (bytes : List Nat) (idx st : Nat), st < 2 ^ W →
    ∃ res : List Nat × Nat, popBytesAsc W bytes idx count st = some res
      ∧ res.2 < 2 ^ W
      ∧ res.1.length = bytes.length
      ∧ ∀ j, (j < idx ∨ idx + count ≤ j) → res.1.getD j 0 = bytes.getD j 0 := by
  intro count
  induction count with
  | zero =>
    intro bytes idx st hst
    exact ⟨(bytes, st), rfl, hst, rfl, fun j _ => rfl⟩
  | succ n ih =>
    intro bytes idx st hst
    have hpop := popBits_eq (n := 8) (by omega) (by omega) hW hst
    have hst' : st / 2 ^ 8 < 2 ^ W := lt_of_le_of_lt (Nat.div_le_self _ _) hst
    obtain ⟨res, hres, h2, hlen, hframe⟩ :=
      ih (bytes.set idx (st % 2 ^ 8)) (idx + 1) (st / 2 ^ 8) hst'
    refine ⟨res, ?_, h2, ?_, ?_⟩
    · rw [popBytesAsc, hpop]
      simpa using hres
    · rw [hlen, List.length_set]
    · intro j hj
      calc res.1.getD j 0 = (bytes.set idx (st % 2 ^ 8)).getD j 0 :=
            hframe j (by omega)
        _ = bytes.getD j 0 := getD_set_ne _ _ _ _ (by omega)


/-- A byte update of the shape emitted for the least significant byte
keeps every bit below the field's in-byte start. -/
theorem B1_bit_low (old mhi v S p : Nat) (hpS : p < S) (hS8 : S < 8) :
    ((old &&& (mhi ||| (2 ^ S - 1))) ||| (v % 2 ^ (8 - S)) <<< S % 256).testBit p
      = old.testBit p := by
  have h256 : (256 : Nat) = 2 ^ 8 := rfl
  rw [h256, Nat.testBit_or, Nat.testBit_and, Nat.testBit_or, Nat.testBit_mod_two_pow,
    Nat.testBit_shiftLeft, Nat.testBit_two_pow_sub_one]
  have d1 : decide (p < S) = true := decide_eq_true hpS
  have d2 : decide (p ≥ S) = false := decide_eq_false (by omega)
  rw [d1, d2]
  simp

/-- A byte update of the shape emitted for a single-byte field keeps
every bit at or above the field's in-byte end. -/
theorem B1_bit_hi (old x S E p : Nat) (hSE : S ≤ E) (hE8 : E < 8) (hpE : E ≤ p)
    (hp8 : p < 8) (hx : x % 256 < 2 ^ E) :
    ((old &&& ((255 ^^^ (2 ^ E - 1)) ||| (2 ^ S - 1))) ||| x % 256).testBit p
      = old.testBit p := by
  have h255 : (255 : Nat) = 2 ^ 8 - 1 := rfl
  rw [h255, Nat.testBit_or, Nat.testBit_and, Nat.testBit_or, Nat.testBit_xor,
    Nat.testBit_two_pow_sub_one, Nat.testBit_two_pow_sub_one, Nat.testBit_two_pow_sub_one]
  have hxp : (x % 256).testBit p = false :=
    Nat.testBit_lt_two_pow (lt_of_lt_of_le hx (Nat.pow_le_pow_right (by omega) hpE))
  have d1 : decide (p < 8) = true := decide_eq_true (by omega)
  have d2 : decide (p < E) = false := decide_eq_false (by omega)
  have d3 : decide (p < S) = false := decide_eq_false (by omega)
  rw [d1, d2, d3, hxp]
  simp

/-- A byte update of the shape emitted for the most significant byte of
a multi-byte field keeps every bit at or above the field's in-byte
end. -/
theorem msb_bit_hi (old y E p : Nat) (hE8 : E < 8) (hpE : E ≤ p) (hp8 : p < 8)
    (hy : y < 2 ^ E) :
    ((old &&& (255 ^^^ (2 ^ E - 1))) ||| y).testBit p = old.testBit p := by
  have h255 : (255 : Nat) = 2 ^ 8 - 1 := rfl
  rw [h255, Nat.testBit_or, Nat.testBit_and, Nat.testBit_xor,
    Nat.testBit_two_pow_sub_one, Nat.testBit_two_pow_sub_one]
  have hyp : y.testBit p = false :=
    Nat.testBit_lt_two_pow (lt_of_lt_of_le hy (Nat.pow_le_pow_right (by omega) hpE))
  have d1 : decide (p < 8) = true := decide_eq_true (by omega)
  have d2 : decide (p < E) = false := decide_eq_false (by omega)
  rw [d1, d2, hyp]
  simp

set_option maxHeartbeats 1000000 in
/-- C3: frame property of the write engine. -/
theorem c3_write_frame (bits offset value : Nat) (bytes : List Nat)
    (h1 : 1 ≤ bits) (h2 : bits ≤ 128) (hv : value < 2 ^ bits)
    (hlen : offset + bits ≤ 8 * bytes.length) :
    ∃ bytes', writeSpecifier (storageWidth bits) bits bytes offset value = some bytes'
      ∧ bytes'.length = bytes.length
      ∧ ∀ i, i < 8 * bytes.length → (i < offset ∨ offset + bits ≤ i) →
          getBit bytes' i = getBit bytes i := by
  obtain ⟨hbw, hW8⟩ := storageWidth_bounds h2
  have hvW : value < 2 ^ storageWidth bits :=
    lt_of_lt_of_le hv (Nat.pow_le_pow_right (by omega) hbw)
  by_cases hal : offset % 8 = 0
      ∧ (if (offset + bits) % 8 = 0 then 8 else (offset + bits) % 8) = 8
  · -- fully byte-aligned fast path
    obtain ⟨res, hres, _, hrlen, hframe⟩ :=
      popBytesAsc_spec hW8 ((offset + bits - 1) / 8 - offset / 8 + 1) bytes
        (offset / 8) value hvW
    refine ⟨res.1, ?_, hrlen, ?_⟩
    · simp only [writeSpecifier]
      rw [if_pos hal, hres]
      rfl
    · intro i hi hout
      have hz : (offset + bits) % 8 = 0 := by
        rcases hal with ⟨hl, hm⟩
        by_cases hz : (offset + bits) % 8 = 0
        · exact hz
        · rw [if_neg hz] at hm
          omega
      have hb : i / 8 < offset / 8 ∨ (offset + bits - 1) / 8 + 1 ≤ i / 8 := by
        omega
      have heq := hframe (i / 8) (by omega)
      unfold getBit
      rw [heq]
  · -- general path
    have hS8 : offset % 8 < 8 := Nat.mod_lt _ (by omega)
    have hpop1 := popBits_eq (n := 8 - offset % 8) (by omega) (by omega) hW8 hvW
    have hst1 : value / 2 ^ (8 - offset % 8) < 2 ^ storageWidth bits :=
      lt_of_le_of_lt (Nat.div_le_self _ _) hvW
    have hLlen : offset / 8 < bytes.length := by omega
    have hMlen : (offset + bits - 1) / 8 < bytes.length := by omega
    simp only [writeSpecifier]
    rw [if_neg hal, hpop1]
    simp only [Option.some_bind]
    set E := if (offset + bits) % 8 = 0 then 8 else (offset + bits) % 8 with hE
    have hEcase : (E = 8 ∧ (offset + bits) % 8 = 0)
        ∨ (E = (offset + bits) % 8 ∧ (offset + bits) % 8 ≠ 0) := by
      rw [hE]
      split
      · exact Or.inl ⟨rfl, by assumption⟩
      · exact Or.inr ⟨rfl, by assumption⟩
    have hnal : ¬(offset % 8 = 0 ∧ E = 8) := hal
    set B1 := bytes.getD (offset / 8) 0 &&&
        ((if offset / 8 = (offset + bits - 1) / 8 ∧ E ≠ 8 then 255 ^^^ (2 ^ E - 1) else 0) |||
          2 ^ (offset % 8) - 1) |||
        (value % 2 ^ (8 - offset % 8)) <<< (offset % 8) % 256 with hB1
    obtain ⟨bs2, hmideq, hst2, hlen2, hframe2⟩ :
        ∃ bs2 : List Nat × Nat,
          (if 2 ≤ (offset + bits - 1) / 8 - offset / 8 then
              popBytesAsc (storageWidth bits) (bytes.set (offset / 8) B1)
                (offset / 8 + 1) ((offset + bits - 1) / 8 - (offset / 8 + 1))
                (value / 2 ^ (8 - offset % 8))
            else some (bytes.set (offset / 8) B1, value / 2 ^ (8 - offset % 8)))
            = some bs2
          ∧ bs2.2 < 2 ^ storageWidth bits
          ∧ bs2.1.length = bytes.length
          ∧ ∀ j, (j ≤ offset / 8 ∨ (offset + bits - 1) / 8 ≤ j) →
              bs2.1.getD j 0 = (bytes.set (offset / 8) B1).getD j 0 := by
      by_cases hmid : 2 ≤ (offset + bits - 1) / 8 - offset / 8
      · rw [if_pos hmid]
        obtain ⟨res, hres, ha, hb, hc⟩ :=
          popBytesAsc_spec hW8 ((offset + bits - 1) / 8 - (offset / 8 + 1))
            (bytes.set (offset / 8) B1) (offset / 8 + 1)
            (value / 2 ^ (8 - offset % 8)) hst1
        exact ⟨res, hres, ha, by rw [hb, List.length_set], fun j hj => hc j (by omega)⟩
      · rw [if_neg hmid]
        exact ⟨(bytes.set (offset / 8) B1, value / 2 ^ (8 - offset % 8)), rfl, hst1,
          by rw [List.length_set], fun j _ => rfl⟩
    rw [hmideq]
    simp only [Option.some_bind]
    by_cases hLM : offset / 8 ≠ (offset + bits - 1) / 8
    · rw [if_pos hLM]
      have hLltM : offset / 8 < (offset + bits - 1) / 8 := by omega
      by_cases hE8 : E = 8
      · -- most significant byte fully covered by the field
        rw [if_pos hE8]
        have hpop3 := popBits_eq (n := E) (by omega) (by omega) hW8 hst2
        rw [hpop3, Option.map_some']
        refine ⟨_, rfl, ?_, ?_⟩
        · rw [List.length_set, hlen2]
        · intro i hi hout
          have hz0 : (offset + bits) % 8 = 0 := by
            rcases hEcase with ⟨_, h⟩ | h
            · exact h
            · omega
          have hjM : i / 8 ≠ (offset + bits - 1) / 8 := by omega
          unfold getBit
          rw [getD_set_ne _ _ _ _ (Ne.symm hjM)]
          have hjrange : i / 8 ≤ offset / 8 ∨ (offset + bits - 1) / 8 ≤ i / 8 := by omega
          rw [hframe2 (i / 8) hjrange]
          by_cases hjL : i / 8 = offset / 8
          · rw [hjL, getD_set_self _ _ _ hLlen, hB1]
            exact B1_bit_low _ _ _ _ _ (by omega) hS8
          · rw [getD_set_ne _ _ _ _ (Ne.symm hjL)]
      · -- partially covered most significant byte
        rw [if_neg hE8]
        have hpop3 := popBits_eq (n := E) (by omega) (by omega) hW8 hst2
        rw [hpop3, Option.map_some']
        refine ⟨_, rfl, ?_, ?_⟩
        · rw [List.length_set, hlen2]
        · intro i hi hout
          have hE7 : E < 8 := by omega
          unfold getBit
          by_cases hjM : i / 8 = (offset + bits - 1) / 8
          · rw [hjM, getD_set_self _ _ _ (by rw [hlen2]; exact hMlen)]
            have hpE : E ≤ i % 8 := by omega
            have hres : bs2.2 % 2 ^ E < 2 ^ E := Nat.mod_lt _ (Nat.two_pow_pos E)
            rw [msb_bit_hi _ _ _ _ hE7 hpE (by omega) hres]
            rw [hframe2 ((offset + bits - 1) / 8) (Or.inr (le_refl _))]
            rw [getD_set_ne _ _ _ _ hLM]
          · rw [getD_set_ne _ _ _ _ (Ne.symm hjM)]
            rw [hframe2 (i / 8) (by omega)]
            by_cases hjL : i / 8 = offset / 8
            · rw [hjL, getD_set_self _ _ _ hLlen, hB1]
              exact B1_bit_low _ _ _ _ _ (by omega) hS8
            · rw [getD_set_ne _ _ _ _ (Ne.symm hjL)]
    · rw [if_neg hLM]
      have hLMeq : offset / 8 = (offset + bits - 1) / 8 := by omega
      refine ⟨bs2.1, rfl, hlen2, ?_⟩
      intro i hi hout
      unfold getBit
      rw [hframe2 (i / 8) (by omega)]
      by_cases hjL : i / 8 = offset / 8
      · rw [hjL, getD_set_self _ _ _ hLlen]
        rcases hout with hlow | hhigh
        · rw [hB1]
          exact B1_bit_low _ _ _ _ _ (by omega) hS8
        · have hE7 : E ≠ 8 := by omega
          have hcond : offset / 8 = (offset + bits - 1) / 8 ∧ E ≠ 8 := ⟨hLMeq, hE7⟩
          rw [hB1, if_pos hcond]
          have hvS : value % 2 ^ (8 - offset % 8) = value := by
            apply Nat.mod_eq_of_lt
            calc value < 2 ^ bits := hv
              _ ≤ 2 ^ (8 - offset % 8) := Nat.pow_le_pow_right (by omega) (by omega)
          have hx : (value % 2 ^ (8 - offset % 8)) <<< (offset % 8) % 256 < 2 ^ E := by
            rw [hvS, Nat.shiftLeft_eq]
            have h1x : value * 2 ^ (offset % 8) < 2 ^ bits * 2 ^ (offset % 8) :=
              (Nat.mul_lt_mul_right (Nat.two_pow_pos _)).mpr hv
            have h2x : 2 ^ bits * 2 ^ (offset % 8) = 2 ^ (bits + offset % 8) :=
              (Nat.pow_add 2 bits (offset % 8)).symm
            have hEbs : 2 ^ E = 2 ^ (bits + offset % 8) := by
              congr 1
              omega
            calc value * 2 ^ (offset % 8) % 256 ≤ value * 2 ^ (offset % 8) :=
                Nat.mod_le _ _
              _ < 2 ^ bits * 2 ^ (offset % 8) := h1x
              _ = 2 ^ E := by rw [h2x, hEbs]
          exact B1_bit_hi _ _ _ _ _ (by omega) (by omega) (by omega) (by omega) hx
      · rw [getD_set_ne _ _ _ _ (Ne.symm hjL)]

/-- Witness for C3: a 4-bit field at bit offset 2 of an all-ones 2-byte
buffer. -/
theorem c3_witness :
    ∃ bytes', writeSpecifier (storageWidth 4) 4 [255, 255] 2 5 = some bytes'
      ∧ bytes'.length = ([255, 255] : List Nat).length
      ∧ ∀ i, i < 8 * ([255, 255] : List Nat).length → (i < 2 ∨ 2 + 4 ≤ i) →
          getBit bytes' i = getBit [255, 255] i :=
  c3_write_frame 4 2 5 [255, 255] (by decide) (by decide) (by decide) (by decide)

theorem fromLeBytes_replicate_zero : ∀ k, fromLeBytes (List.replicate k 0) = 0 := by
  intro k
  induction k with
  | zero => rfl
  | succ k ih => simp [List.replicate, fromLeBytes, ih]

theorem fromLeBytes_append_replicate (a : List Nat) (k : Nat) :
    fromLeBytes (a ++ List.replicate k 0) = fromLeBytes a := by
  induction a with
  | nil => simpa [fromLeBytes] using fromLeBytes_replicate_zero k
  | cons b bs ih => simp [fromLeBytes, ih]

theorem fromLeBytes_lt : ∀ a : List Nat, (∀ x ∈ a, x < 256) →
    fromLeBytes a < 256 ^ a.length := by
  intro a
  induction a with
  | nil => intro _; simp [fromLeBytes]
  | cons b bs ih =>
    intro h
    have hb : b < 256 := h b (List.mem_cons_self _ _)
    have hr := ih (fun x hx => h x (List.mem_cons_of_mem _ hx))
    simp only [fromLeBytes, List.length_cons]
    have h2 : 256 * (fromLeBytes bs + 1) ≤ 256 * 256 ^ bs.length :=
      Nat.mul_le_mul_left 256 hr
    have h3 : 256 * 256 ^ bs.length = 256 ^ (bs.length + 1) := by
      rw [Nat.pow_succ, Nat.mul_comm]
    omega

theorem leBytes_length : ∀ k b, (leBytes k b).length = k := by
  intro k
  induction k with
  | zero => intro b; rfl
  | succ k ih => intro b; simp [leBytes, ih]

theorem leBytes_fromLeBytes : ∀ a : List Nat, (∀ x ∈ a, x < 256) →
    leBytes a.length (fromLeBytes a) = a := by
  intro a
  induction a with
  | nil => intro _; rfl
  | cons b bs ih =>
    intro h
    have hb : b < 256 := h b (List.mem_cons_self _ _)
    have hr := ih (fun x hx => h x (List.mem_cons_of_mem _ hx))
    simp only [fromLeBytes, List.length_cons, leBytes, List.cons.injEq]
    constructor
    · rw [Nat.add_mul_mod_self_left]
      exact Nat.mod_eq_of_lt hb
    · rw [Nat.add_mul_div_left _ _ (by omega : 0 < 256), Nat.div_eq_of_lt hb]
      simpa using hr

theorem fromLeBytes_leBytes : ∀ (k b : Nat), b < 256 ^ k →
    fromLeBytes (leBytes k b) = b := by
  intro k
  induction k with
  | zero =>
    intro b hb
    have : b = 0 := by simpa using hb
    simp [this, leBytes, fromLeBytes]
  | succ k ih =>
    intro b hb
    have hdiv : b / 256 < 256 ^ k := by
      have hp : 256 ^ (k + 1) = 256 * 256 ^ k := by rw [Nat.pow_succ, Nat.mul_comm]
      omega
    simp only [leBytes, fromLeBytes, ih (b / 256) hdiv]
    omega

theorem leBytes_zero : ∀ k, leBytes k 0 = List.replicate k 0 := by
  intro k
  induction k with
  | zero => rfl
  | succ k ih => simp [leBytes, List.replicate, ih]

theorem leBytes_split : ∀ (k m b : Nat), b < 256 ^ k →
    leBytes (k + m) b = leBytes k b ++ List.replicate m 0 := by
  intro k
  induction k with
  | zero =>
    intro m b hb
    have : b = 0 := by simpa using hb
    simp [this, leBytes, leBytes_zero]
  | succ k ih =>
    intro m b hb
    have hadd : k + 1 + m = (k + m) + 1 := by omega
    have hdiv : b / 256 < 256 ^ k := by
      have hp : 256 ^ (k + 1) = 256 * 256 ^ k := by rw [Nat.pow_succ, Nat.mul_comm]
      omega
    rw [hadd]
    simp only [leBytes, ih m (b / 256) hdiv]
    rfl

/-- Core of the slot/array conversion round trip, for a field of `s`
bits (a byte multiple) stored in a `W`-bit integer with enough bytes. -/
theorem arrayConv_core (s W : Nat) (hdiv : s % 8 = 0) (hKk : s / 8 ≤ W / 8) :
    (∀ a : List Nat, a.length = s / 8 → (∀ x ∈ a, x < 256) →
      array_into_bytes W s a < 2 ^ s
      ∧ bytes_into_array W s (array_into_bytes W s a) = some a)
    ∧ (∀ b, b < 2 ^ s →
      ∃ arr, bytes_into_array W s b = some arr ∧ array_into_bytes W s arr = b) := by
  have hp : (2 : Nat) ^ s = 256 ^ (s / 8) := by
    rw [show (256 : Nat) = 2 ^ 8 from rfl, ← Nat.pow_mul]
    congr 1
    omega
  have hsplit : ∀ b, b < 2 ^ s →
      leBytes (W / 8) b = leBytes (s / 8) b ++ List.replicate (W / 8 - s / 8) 0 := by
    intro b hb
    have hWs : W / 8 = s / 8 + (W / 8 - s / 8) := by omega
    nth_rewrite 1 [hWs]
    exact leBytes_split _ _ _ (hp ▸ hb)
  have hbia : ∀ b, b < 2 ^ s → bytes_into_array W s b = some (leBytes (s / 8) b) := by
    intro b hb
    have hlen : (leBytes (s / 8) b).length = s / 8 := leBytes_length _ _
    have hdrop : List.drop (s / 8) (leBytes (s / 8) b ++ List.replicate (W / 8 - s / 8) 0)
        = List.replicate (W / 8 - s / 8) 0 := by
      nth_rewrite 1 [← hlen]
      exact List.drop_left _ _
    have htake : List.take (s / 8) (leBytes (s / 8) b ++ List.replicate (W / 8 - s / 8) 0)
        = leBytes (s / 8) b := by
      nth_rewrite 1 [← hlen]
      exact List.take_left _ _
    simp only [bytes_into_array]
    rw [hsplit b hb, hdrop, htake]
    rw [if_pos (by simp)]
  constructor
  · intro a halen hamem
    have hlt : array_into_bytes W s a < 2 ^ s := by
      unfold array_into_bytes
      rw [fromLeBytes_append_replicate, hp, ← halen]
      exact fromLeBytes_lt a hamem
    refine ⟨hlt, ?_⟩
    rw [hbia _ hlt]
    unfold array_into_bytes
    rw [fromLeBytes_append_replicate, ← halen, leBytes_fromLeBytes a hamem]
  · intro b hb
    refine ⟨leBytes (s / 8) b, hbia b hb, ?_⟩
    unfold array_into_bytes
    rw [fromLeBytes_append_replicate]
    exact fromLeBytes_leBytes _ _ (hp ▸ hb)

/-- C10: for every supported non-storage-filling size
`s ∈ {24, 40, 48, 56, 72, 80, 88, 96, 104, 112, 120}`,
`array_into_bytes` of an `s/8`-byte array is below `2 ^ s` (the dropped
high storage bytes are zero), `bytes_into_array` inverts it exactly, and
conversely every storage value whose bytes above `s/8` are zero (i.e.
below `2 ^ s`) round-trips through `bytes_into_array` and
`array_into_bytes`. -/
theorem c10_array_conv (s : Nat)
    (hs : s = 24 ∨ s = 40 ∨ s = 48 ∨ s = 56 ∨ s = 72 ∨ s = 80 ∨ s = 88 ∨ s = 96
      ∨ s = 104 ∨ s = 112 ∨ s = 120) :
    (∀ a : List Nat, a.length = s / 8 → (∀ x ∈ a, x < 256) →
      array_into_bytes (storageWidth s) s a < 2 ^ s
      ∧ bytes_into_array (storageWidth s) s (array_into_bytes (storageWidth s) s a)
          = some a)
    ∧ (∀ b, b < 2 ^ s →
      ∃ arr, bytes_into_array (storageWidth s) s b = some arr
        ∧ array_into_bytes (storageWidth s) s arr = b) := by
  refine arrayConv_core s (storageWidth s) ?_ ?_ <;>
    rcases hs with rfl | rfl | rfl | rfl | rfl | rfl | rfl | rfl | rfl | rfl | rfl <;>
    decide

/-- Witness for C10 at the 24-bit size. -/
theorem c10_witness :
    (∀ a : List Nat, a.length = 24 / 8 → (∀ x ∈ a, x < 256) →
      array_into_bytes (storageWidth 24) 24 a < 2 ^ 24
      ∧ bytes_into_array (storageWidth 24) 24 (array_into_bytes (storageWidth 24) 24 a)
          = some a)
    ∧ (∀ b, b < 2 ^ 24 →
      ∃ arr, bytes_into_array (storageWidth 24) 24 b = some arr
        ∧ array_into_bytes (storageWidth 24) 24 arr = b) :=
  c10_array_conv 24 (Or.inl rfl)

/-- C7: encoding of the tagged ADT `SimpleAdt` writes the tag at offset 0
of a fresh zeroed slot and each payload field at `tag_bits` plus the
widths of the prior payload fields of its variant, so the encoded slot is
`tag + payload₁·2^2 (+ payload₂·2^(2+w₁))`; decoding returns the variant
and payloads unchanged; for the narrower variants (`Second`, 4 of 8
bits) all unused high bits of the slot are zero and read back as zero. -/
theorem c7_simpleAdt_codec :
    (∀ t f, simpleAdtIntoBytes (.First t f)
        = some (.ok (0 + twoDisc t * 2 ^ 2 + fourDisc f * 2 ^ (2 + 2)))
      ∧ simpleAdtFromBytes (0 + twoDisc t * 2 ^ 2 + fourDisc f * 2 ^ (2 + 2))
        = some (.ok (.First t f)))
    ∧ (∀ t, simpleAdtIntoBytes (.Second t) = some (.ok (1 + twoDisc t * 2 ^ 2))
      ∧ 1 + twoDisc t * 2 ^ 2 < 2 ^ (2 + 2)
      ∧ readSpecifier 8 4 (leBytes 1 (1 + twoDisc t * 2 ^ 2)) (2 + 2) = some 0
      ∧ simpleAdtFromBytes (1 + twoDisc t * 2 ^ 2) = some (.ok (.Second t)))
    ∧ (simpleAdtIntoBytes .Third = some (.ok 2) ∧ (2 : Nat) < 2 ^ 2
      ∧ readSpecifier 8 6 (leBytes 1 2) 2 = some 0
      ∧ simpleAdtFromBytes 2 = some (.ok .Third))
    ∧ (simpleAdtIntoBytes .Fourth = some (.ok 3) ∧ (3 : Nat) < 2 ^ 2
      ∧ readSpecifier 8 6 (leBytes 1 3) 2 = some 0
      ∧ simpleAdtFromBytes 3 = some (.ok .Fourth)) := by
  refine ⟨fun t f => ?_, fun t => ?_, by decide, by decide⟩
  · cases t <;> cases f <;> exact ⟨by decide, by decide⟩
  · cases t <;> exact ⟨by decide, by decide, by decide, by decide⟩

/-- C4 counterexample: the slot value 4 of the tagged ADT `Tagged` has
the unrecognized tag 0 (`Tags::Unused`, which matches no `Tagged`
variant), yet `from_bytes` returns `InvalidBitPattern` carrying the
whole slot value 4, not the tag value 0. -/
theorem c4_counterexample :
    taggedFromBytes 4 = some (.error 4) ∧ taggedFromBytes 4 ≠ some (.error 0) := by
  exact ⟨by decide, by decide⟩

/-- C4 (amended): `from_bytes` of the tagged ADT `Tagged` reads the
2-bit tag at bit offset 0 of the slot and dispatches on it; for every
input whose tag value matches no declared variant (tag 0, the spare
`Tags::Unused` value, or tag 3, rejected by `Tags::from_bytes`) it
returns `InvalidBitPattern` carrying the whole storage value — whose low
2 bits are the unrecognized tag — rather than the tag value alone; a
matching payload-free tag (2, `Missing`) decodes to its variant. -/
theorem c4_tagged_decode (b : Nat) (hb : b < 2 ^ 16) :
    (b % 4 = 0 ∨ b % 4 = 3 → taggedFromBytes b = some (.error b))
    ∧ (b % 4 = 2 → taggedFromBytes b = some (.ok .Missing)) := by
  have hlist : leBytes 2 b = [b % 256, b / 256 % 256] := rfl
  have htag : readSpecifier 8 2 (leBytes 2 b) 0 = some (b % 4) := by
    rw [hlist]
    simp only [readSpecifier]
    norm_num
    rw [pushBits_eq (by omega) (by omega) (by omega) (by norm_num : (0 : Nat) < 2 ^ (8 - 2))]
    congr 1
    rw [Nat.and_pow_two_sub_one_eq_mod,
      Nat.mod_mod_of_dvd b (by norm_num : (4 : Nat) ∣ 256)]
    omega
  constructor
  · intro h03
    simp only [taggedFromBytes]
    rw [htag]
    simp only [Option.some_bind]
    rcases h03 with h | h <;> rw [h] <;> rfl
  · intro h2
    simp only [taggedFromBytes]
    rw [htag]
    simp only [Option.some_bind]
    rw [h2]
    rfl

/-- Witness for C4: slot values 3 (unrecognized tag 3) and 2 (the
`Missing` tag). -/
theorem c4_witness :
    taggedFromBytes 3 = some (.error 3) ∧ taggedFromBytes 2 = some (.ok .Missing) :=
  ⟨(c4_tagged_decode 3 (by decide)).1 (Or.inr (by decide)),
   (c4_tagged_decode 2 (by decide)).2 (by decide)⟩

end ModularBitfield
